import Mathlib

/-!
Verification development for the Free API Hub request pipeline:
cache strategies (`src/cache/strategies.js`), rate limiter and uptime
oracle (`src/index.js`), analytics middleware, and the WebSocket
room/channel registry.  Each JavaScript function relevant to the
specification is shallowly embedded as an executable Lean definition,
and the specification's claims are settled as theorems about those
definitions.  JSON serialization (`JSON.stringify`/`JSON.parse`) is
modelled as the identity coding on an abstract value type, and wall
clock time as a natural-number instant.
-/

namespace FreeApiHub

/-! ## Key-value store model

The shared Dragonfly/Redis store is modelled as an association list of
`(key, value, expiry instant)` entries.  `redis.get` at instant `now`
returns a value only when the entry exists and has not yet expired;
`redis.setEx key ttl v` installs `(key, v, now + ttl)`.  Store outages
are injected through explicit failure flags, mirroring the `try/catch`
structure of the JavaScript. -/

/-- Lookup in an association list keyed by `κ` (model of `Map.get` /
a keyed Redis read). -/
def lookupA {κ β : Type} [DecidableEq κ] : List (κ × β) → κ → Option β
  | [], _ => none
  | (k, v) :: rest, k0 => if k = k0 then some v else lookupA rest k0

/-- Insert-or-replace in an association list, keeping the position of an
existing key and appending a fresh key at the end (model of JavaScript
`Map.set` insertion-order semantics). -/
def setA {κ β : Type} [DecidableEq κ] : List (κ × β) → κ → β → List (κ × β)
  | [], k0, v0 => [(k0, v0)]
  | (k, v) :: rest, k0, v0 =>
      if k = k0 then (k0, v0) :: rest else (k, v) :: setA rest k0 v0

/-- Remove the (first) entry for a key (model of `Map.delete` /
`redis.del` of one key). -/
def eraseA {κ β : Type} [DecidableEq κ] : List (κ × β) → κ → List (κ × β)
  | [], _ => []
  | (k, v) :: rest, k0 => if k = k0 then rest else (k, v) :: eraseA rest k0

/-- A cache entry as stored by `setEx`: payload plus absolute expiry
instant. -/
abbrev KV (α : Type) := List (String × α × Nat)

/-- Model of `redis.get key` at instant `now`: a live (unexpired) entry
yields its payload. -/
def storeGet {α : Type} (st : KV α) (key : String) (now : Nat) : Option α :=
  match lookupA st key with
  | some (v, exp) => if now < exp then some v else none
  | none => none

/-- Model of `redis.setEx key ttl v` at instant `now`. -/
def storeSet {α : Type} (st : KV α) (key : String) (v : α) (ttl now : Nat) : KV α :=
  setA st key (v, now + ttl)

/-- Store fault injection: whether the next read / write against the
store throws. -/
structure Faults where
  readFails : Bool
  writeFails : Bool
deriving DecidableEq, Repr

/-- A healthy store: no injected failures. -/
def Faults.none : Faults := ⟨false, false⟩

/-! ## `cacheAside` (src/cache/strategies.js, lines 14–35)

```js
async cacheAside(key, fetchFn, ttl = 300) {
  try {
    const cached = await this.redis.get(key);
    if (cached) return { data: JSON.parse(cached), cached: true };
    const data = await fetchFn();
    await this.redis.setEx(key, ttl, JSON.stringify(data));
    return { data, cached: false };
  } catch (error) {
    return { data: await fetchFn(), cached: false };
  }
}
```

The producer `fetchFn` is modelled as a function from its invocation
index (0-based) to an `Except` outcome, so that repeated invocation and
producer failure are both expressible.  The result records the returned
value (or the escaping exception), the final store contents, and how
many times the producer was invoked. -/

/-- The `{data, cached}` object returned by the cache strategies. -/
structure AsideResult (α : Type) where
  data : α
  cached : Bool
deriving DecidableEq, Repr

/-- Shallow embedding of `cacheAside`.  Control flow follows the
JavaScript exactly: the single `catch` receives exceptions from the
read, the producer, and the write alike, and re-invokes the producer. -/
def cacheAside {α ε : Type} (flt : Faults) (st : KV α) (key : String)
    (fetchFn : Nat → Except ε α) (ttl : Nat) (now : Nat) :
    Except ε (AsideResult α) × KV α × Nat :=
  if flt.readFails then
    -- `redis.get` threw: catch block, fetch fresh (first invocation)
    match fetchFn 0 with
    | .ok d => (.ok ⟨d, false⟩, st, 1)
    | .error e => (.error e, st, 1)
  else
    match storeGet st key now with
    | some v => (.ok ⟨v, true⟩, st, 0)
    | none =>
      match fetchFn 0 with
      | .error _ =>
        -- producer threw inside the `try`: catch block re-invokes it
        (match fetchFn 1 with
         | .ok d => (.ok ⟨d, false⟩, st, 2)
         | .error e => (.error e, st, 2))
      | .ok d =>
        if flt.writeFails then
          -- `setEx` threw: catch block re-invokes the producer
          (match fetchFn 1 with
           | .ok d2 => (.ok ⟨d2, false⟩, st, 2)
           | .error e => (.error e, st, 2))
        else
          (.ok ⟨d, false⟩, storeSet st key d ttl now, 1)

/-! ## `rateLimit` (src/index.js, lines 60–72)

```js
async function rateLimit(service, userId) {
  const key = `rl:${service}:${userId}`;
  try {
    const current = await redis.incr(key);
    if (current === 1) await redis.expire(key, 60);
    const limit = yamlConfig[service]?.rateLimit || 100;
    return current > limit;
  } catch (error) {
    return false; // Fail open
  }
}
```

Counter entries are `(count, optional expiry instant)`; a key whose
expiry has passed behaves as absent (Redis expires it lazily).  `incr`
on an absent or expired key creates it with count 1 and no expiry;
`expire key 60` stamps the expiry `now + 60`. -/

/-- Rate-limit counter store: key ↦ (counter value, expiry instant if
one was set). -/
abbrev RLStore := List (String × Nat × Option Nat)

/-- Whether a counter entry is live at instant `now` (an entry with an
expiry `e` exists only while `now < e`). -/
def rlGetLive (st : RLStore) (key : String) (now : Nat) : Option (Nat × Option Nat) :=
  match lookupA st key with
  | some (c, some e) => if now < e then some (c, some e) else none
  | some (c, none) => some (c, none)
  | none => none

/-- Model of `redis.incr key` at instant `now`: returns the
post-increment value and the updated store. -/
def rlIncr (st : RLStore) (key : String) (now : Nat) : Nat × RLStore :=
  match rlGetLive st key now with
  | some (c, e) => (c + 1, setA st key (c + 1, e))
  | none => (1, setA st key (1, Option.none))

/-- Model of `redis.expire key 60` at instant `now`. -/
def rlExpire (st : RLStore) (key : String) (now : Nat) : RLStore :=
  match lookupA st key with
  | some (c, _) => setA st key (c, some (now + 60))
  | none => st

/-- The per-service limit: `yamlConfig[service]?.rateLimit || 100`.
JavaScript `||` falls back to 100 when the configured value is absent
or `0` (falsy). -/
def effectiveLimit (cfgLimit : Option Nat) : Nat :=
  match cfgLimit with
  | some l => if l = 0 then 100 else l
  | none => 100

/-- Shallow embedding of `rateLimit`.  Returns `(denied, store)`;
`storeFails` injects a store exception, on which the function fails
open (`false`) leaving the store unchanged. -/
def rateLimit (storeFails : Bool) (st : RLStore) (service userId : String)
    (cfgLimit : Option Nat) (now : Nat) : Bool × RLStore :=
  if storeFails then (false, st)
  else
    let key := "rl:" ++ service ++ ":" ++ userId
    let r := rlIncr st key now
    let st2 := if r.1 = 1 then rlExpire r.2 key now else r.2
    (decide (effectiveLimit cfgLimit < r.1), st2)

/-- Fold a sequence of rate-limit calls at the given instants over the
store (all for the same service/user and a healthy store). -/
def rateLimitRun (st : RLStore) (service userId : String)
    (cfgLimit : Option Nat) (times : List Nat) : RLStore :=
  times.foldl (fun s t => (rateLimit false s service userId cfgLimit t).2) st

/-! ## `verifyUptime` (src/index.js, lines 75–95)

```js
async function verifyUptime(serviceUrl, checks = 3) {
  const results = await Promise.allSettled(
    Array(checks).fill(0).map(() =>
      axios.get(serviceUrl, { timeout: 3000, validateStatus: s => s < 500 })
        .then(() => true).catch(() => false)));
  const successful = results.filter(r => r.status === 'fulfilled' && r.value).length;
  const uptimePercent = (successful / checks) * 100;
  return { up: uptimePercent >= 66, uptimePercent, checks: results.length };
}
```

Each probe is abstracted to its boolean outcome (`true` iff an HTTP
response with status < 500 arrived within the timeout); the promise
combinator settles every probe, so the outcome list has one entry per
check.  The percentage arithmetic is modelled over `ℚ`. -/

/-- Result of the uptime oracle. -/
structure UptimeResult where
  up : Bool
  uptimePercent : ℚ
  checks : Nat
deriving DecidableEq, Repr

/-- Shallow embedding of `verifyUptime`, applied to the outcomes of the
probes (one boolean per check). -/
def verifyUptime (probes : List Bool) : UptimeResult :=
  let successful := (probes.filter id).length
  let uptimePercent : ℚ := ((successful : ℚ) / (probes.length : ℚ)) * 100
  { up := decide ((66 : ℚ) ≤ uptimePercent)
    uptimePercent := uptimePercent
    checks := probes.length }

/-! ## Analytics window (src/middleware/analytics.js, `analyticsMiddleware`)

```js
analytics.requests.push({ ...requestData, statusCode, duration, cached });
if (analytics.requests.length > 1000) {
  analytics.requests.shift();
}
```

The window is a list in insertion order; `shift()` drops the head
(the oldest record). -/

/-- One `record` step of the analytics request window: push the record,
then drop the oldest if the window exceeds 1000 entries. -/
def recordRequest {α : Type} (w : List α) (e : α) : List α :=
  let w2 := w ++ [e]
  if w2.length > 1000 then w2.tail else w2

/-- Record a whole sequence of request outcomes, in order. -/
def recordAll {α : Type} (w : List α) (es : List α) : List α :=
  es.foldl recordRequest w

/-! ## `writeThrough` (src/cache/strategies.js, lines 40–53)

```js
async writeThrough(key, data, writeFn, ttl = 300) {
  try {
    await writeFn(data);
    await this.redis.setEx(key, ttl, JSON.stringify(data));
    return true;
  } catch (error) {
    throw error;
  }
}
```

`persistOk` is the outcome of `writeFn(data)` (the authoritative
database write); `flt.writeFails` injects a failure of the cache
`setEx`.  The function either returns `true` with the updated cache or
rethrows the first failure. -/

/-- Shallow embedding of `writeThrough`: returns the `Except` outcome
and the resulting cache contents. -/
def writeThrough {α : Type} (persistOk : Bool) (flt : Faults) (st : KV α)
    (key : String) (data : α) (ttl now : Nat) : Except Unit Bool × KV α :=
  if persistOk then
    if flt.writeFails then (.error (), st)
    else (.ok true, storeSet st key data ttl now)
  else
    -- `writeFn` threw: the catch rethrows; `setEx` never ran
    (.error (), st)

/-! ## `invalidatePattern` (src/cache/strategies.js, lines 205–230)

```js
async invalidatePattern(pattern) {
  try {
    let cursor = 0, deleted = 0;
    do {
      const result = await this.redis.scan(cursor, { MATCH: pattern, COUNT: 100 });
      cursor = result.cursor;
      if (result.keys.length > 0) {
        await this.redis.del(result.keys);
        deleted += result.keys.length;
      }
    } while (cursor !== 0);
    return deleted;
  } catch (error) {
    this.logger.error('Pattern invalidation error:', error);
    throw error;
  }
}
```

A run of the cursor-based `SCAN` protocol is modelled by the finite
trace of responses the store produces: each response is either a batch
`(cursor, keys)` or an injected store exception.  The loop consumes
one response per iteration and stops when a response carries cursor 0;
`redis.del keys` removes the listed keys from the keyspace. -/

/-- One `SCAN` response: the next cursor and the batch of matching
keys. -/
structure ScanResp where
  cursor : Nat
  keys : List String
deriving DecidableEq, Repr

/-- Model of `redis.del keys` on the keyspace. -/
def delKeys (st : List String) (ks : List String) : List String :=
  st.filter (fun k => ¬ k ∈ ks)

/-- Loop body of `invalidatePattern`, consuming the remaining scan
responses; `acc` is the running `deleted` counter.  An exhausted
response list cannot occur for a well-formed scan trace (one whose last
response has cursor 0) and is mapped to returning the count so far. -/
def invalidateGo (st : List String) (acc : Nat) :
    List (Except Unit ScanResp) → Except Unit Nat × List String
  | [] => (.ok acc, st)
  | .error e :: _ => (.error e, st)
  | .ok r :: rest =>
      let st2 := if r.keys.length > 0 then delKeys st r.keys else st
      let acc2 := acc + r.keys.length
      if r.cursor = 0 then (.ok acc2, st2) else invalidateGo st2 acc2 rest

/-- Shallow embedding of `invalidatePattern`, applied to the store's
scan-response trace and keyspace.  Returns the `deleted` count (or the
escaping exception) and the resulting keyspace. -/
def invalidatePattern (resps : List (Except Unit ScanResp))
    (st : List String) : Except Unit Nat × List String :=
  invalidateGo st 0 resps

/-- A well-formed scan trace: at least one response, every response
before the last carries a nonzero cursor, and the last carries cursor
0 (the cursor has returned to its start value). -/
def WfTrace : List ScanResp → Prop
  | [] => False
  | [r] => r.cursor = 0
  | r :: rest => r.cursor ≠ 0 ∧ WfTrace rest

/-! ## Multi-level cache (src/cache/strategies.js, lines 102–165)

```js
createMultiLevel() {
  const memoryCache = new Map();
  const maxMemoryEntries = 100;
  return {
    async get(key) {
      if (memoryCache.has(key)) {
        const entry = memoryCache.get(key);
        if (entry.expires > Date.now()) return { data: entry.data, level: 'L1', cached: true };
        memoryCache.delete(key);
      }
      try {
        const cached = await this.redis.get(key);
        if (cached) {
          const data = JSON.parse(cached);
          if (memoryCache.size >= maxMemoryEntries) {
            const firstKey = memoryCache.keys().next().value;
            memoryCache.delete(firstKey);
          }
          memoryCache.set(key, { data, expires: Date.now() + 60000 });
          return { data, level: 'L2', cached: true };
        }
      } catch (error) { this.logger.error('L2 cache error:', error); }
      return null;
    },
    async set(key, data, ttl = 300) {
      memoryCache.set(key, { data, expires: Date.now() + 60000 });
      try { await this.redis.setEx(key, ttl, JSON.stringify(data)); }
      catch (error) { this.logger.error('L2 cache set error:', error); }
    },
    ...
  };
}
```

The L1 `Map` is an association list in insertion order, the oldest
inserted key at the head; `memoryCache.keys().next().value` is the
head's key.  Instants are in milliseconds here, matching `Date.now()`
and the fixed `60000` ms promotion expiry. -/

/-- L1 memory cache: key ↦ (data, expiry instant in ms), in insertion
order. -/
abbrev L1 (α : Type) := List (String × α × Nat)

/-- Which cache level served a hit. -/
inductive Level where
  | l1
  | l2
deriving DecidableEq, Repr

/-- Eviction of the oldest-inserted L1 key:
`memoryCache.delete(memoryCache.keys().next().value)` — the first key
in insertion order is the head of the association list (a no-op on an
empty map, where `next().value` is `undefined`). -/
def evictOldest {α : Type} : L1 α → L1 α
  | [] => []
  | (k0, v0) :: rest => eraseA ((k0, v0) :: rest) k0

/-- The L2 (`redis.get`) arm of the multi-level `get`, entered once L1
has failed to serve the key: an L2 hit is promoted into L1, evicting
the oldest-inserted L1 key first when L1 is at capacity; an L2 failure
or miss returns `null`. -/
def mlGetL2 {α : Type} (l2Fails : Bool) (mem1 : L1 α) (l2 : KV α)
    (key : String) (now : Nat) : Option (α × Level) × L1 α :=
  if l2Fails then (none, mem1)
  else
    match storeGet l2 key now with
    | some d =>
        let mem2 := if mem1.length ≥ 100 then evictOldest mem1 else mem1
        (some (d, Level.l2), setA mem2 key (d, now + 60000))
    | none => (none, mem1)

/-- Shallow embedding of the multi-level `get`: returns the hit (data
and level) if any, together with the updated L1 map.  `l2Fails`
injects a failure of the `redis.get`; `l2` is the backing store.  An
expired L1 entry is deleted before falling through to L2, as in the
source. -/
def mlGet {α : Type} (l2Fails : Bool) (mem : L1 α) (l2 : KV α)
    (key : String) (now : Nat) : Option (α × Level) × L1 α :=
  match lookupA mem key with
  | some (d, exp) =>
      if now < exp then (some (d, Level.l1), mem)
      else mlGetL2 l2Fails (eraseA mem key) l2 key now
  | none => mlGetL2 l2Fails mem l2 key now

/-- Shallow embedding of the multi-level `set`: L1 is written
unconditionally (the source performs no eviction here); the L2 write
is attempted and its failure swallowed. -/
def mlSet {α : Type} (l2Fails : Bool) (mem : L1 α) (l2 : KV α)
    (key : String) (data : α) (ttl now : Nat) : L1 α × KV α :=
  let mem2 := setA mem key (data, now + 60000)
  if l2Fails then (mem2, l2) else (mem2, storeSet l2 key data ttl now)

/-! ## Response-time summary (src/middleware/analytics.js, `getAnalyticsSummary`)

```js
const sortedTimes = [...analytics.responseTime].sort((a, b) => a - b);
const p50 = sortedTimes[Math.floor(sortedTimes.length * 0.5)] || 0;
const p95 = sortedTimes[Math.floor(sortedTimes.length * 0.95)] || 0;
const p99 = sortedTimes[Math.floor(sortedTimes.length * 0.99)] || 0;
...
responseTime: {
  p50: Math.round(p50), p95: Math.round(p95), p99: Math.round(p99),
  min: Math.min(...sortedTimes) || 0,
  max: Math.max(...sortedTimes) || 0
}
```

Durations are integral milliseconds (`Date.now()` differences), so
`Math.round` is the identity on them and `N * 0.95`-style float
products floor to the same integer as exact arithmetic for every
window size up to the 1000-record cap; the indexing is modelled with
natural floor division.  On the empty window JavaScript's
`Math.min()` yields `Infinity`; the model returns 0 there and the
percentile claims are stated for non-empty windows only. -/

/-- Nearest-rank element: `sorted[Math.floor(sorted.length * p / 100)] || 0`. -/
def percentileAt (sorted : List Nat) (p : Nat) : Nat :=
  sorted.getD (sorted.length * p / 100) 0

/-- The `responseTime` block of the analytics summary. -/
structure RTStats where
  p50 : Nat
  p95 : Nat
  p99 : Nat
  minRT : Nat
  maxRT : Nat
deriving DecidableEq, Repr

/-- `Math.min(...)` over a list (0 on the empty list, which the claims
never exercise). -/
def jsMin : List Nat → Nat
  | [] => 0
  | x :: xs => xs.foldl Nat.min x

/-- `Math.max(...)` over a list (0 on the empty list). -/
def jsMax : List Nat → Nat
  | [] => 0
  | x :: xs => xs.foldl Nat.max x

/-- Shallow embedding of the response-time part of
`getAnalyticsSummary`, applied to the recorded durations. -/
def summaryRT (times : List Nat) : RTStats :=
  let sorted := times.insertionSort (· ≤ ·)
  { p50 := percentileAt sorted 50
    p95 := percentileAt sorted 95
    p99 := percentileAt sorted 99
    minRT := jsMin sorted
    maxRT := jsMax sorted }

/-! ## WebSocket room registry (src/websocket/server.js)

The modelled implementation keeps, per client, the set of rooms the
client has joined (`client.rooms`) and, per room, the set of member
client ids (`this.rooms`):

```js
joinRoom(clientId, roomName) {
  const client = this.clients.get(clientId);
  if (!client) return;
  if (!this.rooms.has(roomName)) this.rooms.set(roomName, new Set());
  this.rooms.get(roomName).add(clientId);
  client.rooms.add(roomName);
  ...
}
leaveRoom(clientId, roomName) {
  const client = this.clients.get(clientId);
  if (!client) return;
  const room = this.rooms.get(roomName);
  if (room) {
    room.delete(clientId);
    if (room.size === 0) this.rooms.delete(roomName);
    ...
  }
  client.rooms.delete(roomName);
}
handleDisconnect(clientId) {
  const client = this.clients.get(clientId);
  if (!client) return;
  client.rooms.forEach(room => this.leaveRoom(clientId, room));
  this.clients.delete(clientId);
}
```

JavaScript `Set`s are duplicate-free lists in insertion order
(`add` appends when absent, `delete` removes the element); `Map`s are
the association lists above.  Message delivery (`sendToClient`,
`broadcastToRoom`) does not affect the registry state and is omitted.
`generateClientId` produces ids that are fresh with respect to the
registry, which the `connect` transition records as a hypothesis. -/

/-- Registry record for one connection: the rooms it has joined. -/
structure WSClient where
  rooms : List String
deriving DecidableEq, Repr

/-- The room/connection registry state. -/
structure WSState where
  clients : List (String × WSClient)
  rooms : List (String × List String)
deriving DecidableEq, Repr

/-- The registry at server start. -/
def wsInit : WSState := ⟨[], []⟩

/-- `Set.add`: append if absent. -/
def addS (s : List String) (x : String) : List String :=
  if x ∈ s then s else s ++ [x]

/-- A new connection registered under a fresh id (the `connection`
handler). -/
def connect (s : WSState) (c : String) : WSState :=
  { s with clients := setA s.clients c ⟨[]⟩ }

/-- `joinRoom(clientId, roomName)`. -/
def joinRoom (s : WSState) (c room : String) : WSState :=
  match lookupA s.clients c with
  | none => s
  | some cl =>
      let members := (lookupA s.rooms room).getD []
      { clients := setA s.clients c ⟨addS cl.rooms room⟩
        rooms := setA s.rooms room (addS members c) }

/-- `leaveRoom(clientId, roomName)`. -/
def leaveRoom (s : WSState) (c room : String) : WSState :=
  match lookupA s.clients c with
  | none => s
  | some cl =>
      let rooms2 :=
        match lookupA s.rooms room with
        | none => s.rooms
        | some ms =>
            let ms2 := ms.erase c
            if ms2 = [] then eraseA s.rooms room else setA s.rooms room ms2
      { clients := setA s.clients c ⟨cl.rooms.erase room⟩
        rooms := rooms2 }

/-- `handleDisconnect(clientId)`: leave every joined room, then drop
the connection record.  The `forEach` over `client.rooms` is modelled
as a fold over its snapshot; each `leaveRoom` call removes exactly the
room being visited from `client.rooms`, so the snapshot and the live
iteration visit the same rooms. -/
def disconnect (s : WSState) (c : String) : WSState :=
  match lookupA s.clients c with
  | none => s
  | some cl =>
      let s2 := cl.rooms.foldl (fun st r => leaveRoom st c r) s
      { s2 with clients := eraseA s2.clients c }

/-- The states the registry can reach from server start.  `connect`
carries the freshness of the generated client id. -/
inductive Reachable : WSState → Prop
  | init : Reachable wsInit
  | connect {s : WSState} (c : String) (hfresh : lookupA s.clients c = none) :
      Reachable s → Reachable (connect s c)
  | join {s : WSState} (c room : String) :
      Reachable s → Reachable (joinRoom s c room)
  | leave {s : WSState} (c room : String) :
      Reachable s → Reachable (leaveRoom s c room)
  | disconnect {s : WSState} (c : String) :
      Reachable s → Reachable (disconnect s c)

/-- Association-list well-formedness: the keys are duplicate-free. -/
def KeysNodup {κ β : Type} (l : List (κ × β)) : Prop :=
  (l.map Prod.fst).Nodup

/-- Registry invariant: duplicate-free keys, no empty room persists,
room member lists are duplicate-free, every member is a registered
client that records the room in its own `rooms` set, and each client's
`rooms` set is duplicate-free. -/
structure WSInv (s : WSState) : Prop where
  ck : KeysNodup s.clients
  rk : KeysNodup s.rooms
  nonempty : ∀ r ms, lookupA s.rooms r = some ms → ms ≠ []
  memNodup : ∀ r ms, lookupA s.rooms r = some ms → ms.Nodup
  memReg : ∀ r ms c, lookupA s.rooms r = some ms → c ∈ ms →
      ∃ cl, lookupA s.clients c = some cl ∧ r ∈ cl.rooms
  clNodup : ∀ c cl, lookupA s.clients c = some cl → cl.rooms.Nodup

/-! ## Association-list lemmas -/

theorem lookupA_setA_self {κ β : Type} [DecidableEq κ] (l : List (κ × β)) (k : κ) (v : β) :
    lookupA (setA l k v) k = some v := by
  induction l with
  | nil => simp [setA, lookupA]
  | cons p rest ih =>
      obtain ⟨a, b⟩ := p
      by_cases hak : a = k
      · simp [setA, hak, lookupA]
      · simp [setA, hak, lookupA, ih]

theorem lookupA_setA_ne {κ β : Type} [DecidableEq κ] (l : List (κ × β)) (k k2 : κ) (v : β)
    (hne : k2 ≠ k) : lookupA (setA l k v) k2 = lookupA l k2 := by
  induction l with
  | nil => simp [setA, lookupA, Ne.symm hne]
  | cons p rest ih =>
      obtain ⟨a, b⟩ := p
      by_cases hak : a = k
      · subst hak
        simp [setA, lookupA, Ne.symm hne]
      · simp [setA, hak, lookupA, ih]

theorem lookupA_eraseA_ne {κ β : Type} [DecidableEq κ] (l : List (κ × β)) (k k2 : κ)
    (hne : k2 ≠ k) : lookupA (eraseA l k) k2 = lookupA l k2 := by
  induction l with
  | nil => simp [eraseA, lookupA]
  | cons p rest ih =>
      obtain ⟨a, b⟩ := p
      by_cases hak : a = k
      · subst hak
        simp [eraseA, lookupA, Ne.symm hne]
      · simp [eraseA, hak, lookupA, ih]

theorem lookupA_keys {κ β : Type} [DecidableEq κ] (l : List (κ × β)) (k : κ) (v : β)
    (h : lookupA l k = some v) : k ∈ l.map Prod.fst := by
  induction l with
  | nil => simp [lookupA] at h
  | cons p rest ih =>
      obtain ⟨a, b⟩ := p
      by_cases hak : a = k
      · simp [hak]
      · simp [lookupA, hak] at h
        simpa using Or.inr (ih h)

theorem lookupA_eraseA_self {κ β : Type} [DecidableEq κ] (l : List (κ × β)) (k : κ)
    (h : KeysNodup l) : lookupA (eraseA l k) k = none := by
  induction l with
  | nil => simp [eraseA, lookupA]
  | cons p rest ih =>
      obtain ⟨a, b⟩ := p
      obtain ⟨ha, hrest⟩ := List.nodup_cons.mp h
      by_cases hak : a = k
      · subst hak
        simp only [eraseA, if_pos rfl]
        cases hres : lookupA rest a with
        | none => exact hres
        | some v => exact absurd (lookupA_keys rest a v hres) ha
      · simp [eraseA, hak, lookupA, ih hrest]

theorem mem_keys_setA {κ β : Type} [DecidableEq κ] (l : List (κ × β)) (k a : κ) (v : β) :
    a ∈ (setA l k v).map Prod.fst ↔ a = k ∨ a ∈ l.map Prod.fst := by
  induction l with
  | nil => simp [setA]
  | cons p rest ih =>
      obtain ⟨x, y⟩ := p
      by_cases hxk : x = k
      · subst hxk
        simp [setA]
      · simp only [setA, if_neg hxk, List.map_cons, List.mem_cons, ih]
        tauto

theorem mem_keys_eraseA {κ β : Type} [DecidableEq κ] (l : List (κ × β)) (k a : κ)
    (h : a ∈ (eraseA l k).map Prod.fst) : a ∈ l.map Prod.fst := by
  induction l with
  | nil => simp [eraseA] at h
  | cons p rest ih =>
      obtain ⟨x, y⟩ := p
      by_cases hxk : x = k
      · have h2 : eraseA ((x, y) :: rest) k = rest := by
          simp [eraseA, hxk]
        rw [h2] at h
        simp only [List.map_cons, List.mem_cons]
        exact Or.inr h
      · have h2 : eraseA ((x, y) :: rest) k = (x, y) :: eraseA rest k := by
          simp [eraseA, hxk]
        rw [h2] at h
        simp only [List.map_cons, List.mem_cons] at h ⊢
        rcases h with h | h
        · exact Or.inl h
        · exact Or.inr (ih h)

theorem keysNodup_setA {κ β : Type} [DecidableEq κ] (l : List (κ × β)) (k : κ) (v : β)
    (h : KeysNodup l) : KeysNodup (setA l k v) := by
  induction l with
  | nil => simp [setA, KeysNodup]
  | cons p rest ih =>
      obtain ⟨a, b⟩ := p
      obtain ⟨ha, hrest⟩ := List.nodup_cons.mp h
      by_cases hak : a = k
      · subst hak
        simpa [KeysNodup, setA] using List.nodup_cons.mpr ⟨ha, hrest⟩
      · have hnotin : a ∉ (setA rest k v).map Prod.fst := by
          intro hmem
          rcases (mem_keys_setA rest k a v).mp hmem with h1 | h1
          · exact hak h1
          · exact ha h1
        simpa [KeysNodup, setA, hak] using List.nodup_cons.mpr ⟨hnotin, ih hrest⟩

theorem keysNodup_eraseA {κ β : Type} [DecidableEq κ] (l : List (κ × β)) (k : κ)
    (h : KeysNodup l) : KeysNodup (eraseA l k) := by
  induction l with
  | nil => simpa [eraseA] using h
  | cons p rest ih =>
      obtain ⟨a, b⟩ := p
      obtain ⟨ha, hrest⟩ := List.nodup_cons.mp h
      by_cases hak : a = k
      · simpa [KeysNodup, eraseA, hak] using hrest
      · have hnotin : a ∉ (eraseA rest k).map Prod.fst :=
          fun hmem => ha (mem_keys_eraseA rest k a hmem)
        simpa [KeysNodup, eraseA, hak] using List.nodup_cons.mpr ⟨hnotin, ih hrest⟩

theorem storeGet_storeSet_self {α : Type} (st : KV α) (key : String) (d : α)
    (ttl now t2 : Nat) :
    storeGet (storeSet st key d ttl now) key t2
      = if t2 < now + ttl then some d else none := by
  simp [storeGet, storeSet, lookupA_setA_self]

theorem storeGet_of_lookupA_none {α : Type} (st : KV α) (key : String) (now : Nat)
    (h : lookupA st key = none) : storeGet st key now = none := by
  simp [storeGet, h]

/-! ## Claim theorems -/

/-- C1: `cacheAside` returns `{data, cached := true}` with the stored
data on a live hit without touching the producer; on a miss it invokes
the producer exactly once, writes the result with the given TTL and
returns `{data, cached := false}`; on a store read or write failure it
still returns the producer's result with `cached := false` instead of
failing the caller; and for a key never written the first call has
`cached := false` while an immediate repeat within the TTL has
`cached := true` with identical data. -/
theorem cacheAside_correct {α ε : Type} (st : KV α) (key : String) (d : α)
    (fetchFn : Nat → Except ε α) (ttl now t2 : Nat) :
    (∀ v, storeGet st key now = some v →
        cacheAside Faults.none st key fetchFn ttl now = (.ok ⟨v, true⟩, st, 0)) ∧
    (storeGet st key now = none → fetchFn 0 = .ok d →
        cacheAside Faults.none st key fetchFn ttl now
          = (.ok ⟨d, false⟩, storeSet st key d ttl now, 1)) ∧
    (∀ wf : Bool, fetchFn 0 = .ok d →
        cacheAside ⟨true, wf⟩ st key fetchFn ttl now = (.ok ⟨d, false⟩, st, 1)) ∧
    (storeGet st key now = none → (∀ n, fetchFn n = .ok d) →
        (cacheAside ⟨false, true⟩ st key fetchFn ttl now).1 = .ok ⟨d, false⟩) ∧
    (lookupA st key = none → now ≤ t2 → t2 < now + ttl →
        (cacheAside Faults.none st key (fun _ => (.ok d : Except ε α)) ttl now).1
            = .ok ⟨d, false⟩ ∧
        (cacheAside Faults.none
            ((cacheAside Faults.none st key (fun _ => (.ok d : Except ε α)) ttl now).2.1)
            key (fun _ => (.ok d : Except ε α)) ttl t2).1 = .ok ⟨d, true⟩) := by
  refine ⟨?_, ?_, ?_, ?_, ?_⟩
  · intro v hv
    simp [cacheAside, Faults.none, hv]
  · intro hmiss hfetch
    simp [cacheAside, Faults.none, hmiss, hfetch]
  · intro wf hfetch
    simp [cacheAside, hfetch]
  · intro hmiss hfetch
    simp [cacheAside, hmiss, hfetch 0, hfetch 1]
  · intro hnone hle hlt
    have hmiss : storeGet st key now = none := storeGet_of_lookupA_none st key now hnone
    have h1 : cacheAside Faults.none st key (fun _ => (.ok d : Except ε α)) ttl now
        = (.ok ⟨d, false⟩, storeSet st key d ttl now, 1) := by
      simp [cacheAside, Faults.none, hmiss]
    refine ⟨by rw [h1], ?_⟩
    rw [h1]
    have hhit : storeGet (storeSet st key d ttl now) key t2 = some d := by
      rw [storeGet_storeSet_self, if_pos hlt]
    simp [cacheAside, Faults.none, hhit]

/-- C1 witness: over an empty store, the first call for key `"k"`
misses and the repeat at instant 100 (within the 300 s TTL) hits with
the same payload. -/
theorem cacheAside_correct_witness :
    (cacheAside (α := Nat) (ε := Unit) Faults.none [] "k" (fun _ => .ok 7) 300 0).1
        = .ok ⟨7, false⟩ ∧
    (cacheAside (α := Nat) (ε := Unit) Faults.none
        ((cacheAside (α := Nat) (ε := Unit) Faults.none [] "k" (fun _ => .ok 7) 300 0).2.1)
        "k" (fun _ => .ok 7) 300 100).1 = .ok ⟨7, true⟩ :=
  (cacheAside_correct [] "k" 7 (fun _ => .ok 7) 300 0 100).2.2.2.2
    rfl (by decide) (by decide)

/-- C10: in `cacheAside` the single `catch` also guards the producer,
so a producer that throws on the miss path is re-invoked inside the
error branch: an always-failing producer is invoked exactly twice and
its second exception propagates, and a producer that succeeds on the
second invocation yields `{data, cached := false}` with the cache
never written. -/
theorem cacheAside_producer_retry {α ε : Type} (st : KV α) (key : String)
    (fetchFn : Nat → Except ε α) (ttl now : Nat)
    (hmiss : storeGet st key now = none) :
    (∀ e1 e2, fetchFn 0 = .error e1 → fetchFn 1 = .error e2 →
        cacheAside Faults.none st key fetchFn ttl now = (.error e2, st, 2)) ∧
    (∀ e d, fetchFn 0 = .error e → fetchFn 1 = .ok d →
        cacheAside Faults.none st key fetchFn ttl now = (.ok ⟨d, false⟩, st, 2)) := by
  constructor
  · intro e1 e2 h0 h1
    simp [cacheAside, Faults.none, hmiss, h0, h1]
  · intro e d h0 h1
    simp [cacheAside, Faults.none, hmiss, h0, h1]

/-- C10 witness: over an empty store, a producer failing on its first
invocation and producing 5 on its second yields `{5, cached := false}`
with the store untouched and exactly two invocations. -/
theorem cacheAside_producer_retry_witness :
    cacheAside (α := Nat) (ε := Unit) Faults.none [] "k"
        (fun n => if n = 0 then .error () else .ok 5) 300 0
      = (.ok ⟨5, false⟩, [], 2) :=
  (cacheAside_producer_retry [] "k" (fun n => if n = 0 then .error () else .ok 5)
      300 0 rfl).2 () 5 rfl rfl

/-- C5: `writeThrough` performs the authoritative write first and
writes the cache entry only if it succeeds; a persist failure is
propagated to the caller with the cache left entirely unchanged. -/
theorem writeThrough_atomic {α : Type} (st : KV α) (key : String) (d : α)
    (ttl now : Nat) :
    (∀ flt, writeThrough false flt st key d ttl now = (.error (), st)) ∧
    (∀ rf : Bool, writeThrough true ⟨rf, false⟩ st key d ttl now
        = (.ok true, storeSet st key d ttl now)) ∧
    (∀ (persistOk : Bool) (flt : Faults),
        (writeThrough persistOk flt st key d ttl now).2 ≠ st → persistOk = true) := by
  refine ⟨?_, ?_, ?_⟩
  · intro flt
    simp [writeThrough]
  · intro rf
    simp [writeThrough]
  · intro persistOk flt hchanged
    cases persistOk with
    | true => rfl
    | false =>
        exfalso
        apply hchanged
        simp [writeThrough]

/-- C5 witness: with a failing persist function the call errors and an
empty cache stays empty; with a succeeding one the entry is written. -/
theorem writeThrough_atomic_witness :
    writeThrough (α := Nat) false Faults.none [] "k" 3 300 0 = (.error (), []) ∧
    writeThrough (α := Nat) true Faults.none [] "k" 3 300 0
      = (.ok true, [("k", 3, 300)]) :=
  ⟨(writeThrough_atomic [] "k" 3 300 0).1 Faults.none,
   by
     have h := (writeThrough_atomic (α := Nat) [] "k" 3 300 0).2.1 false
     simpa [storeSet, setA, Faults.none] using h⟩

theorem recordAll_eq_drop {α : Type} (es w : List α) (hw : w.length ≤ 1000) :
    recordAll w es = (w ++ es).drop (w.length + es.length - 1000) := by
  induction es generalizing w with
  | nil => simp [recordAll, Nat.sub_eq_zero_of_le hw]
  | cons e es ih =>
      have hstep : recordAll w (e :: es) = recordAll (recordRequest w e) es := by
        simp [recordAll]
      rcases Nat.lt_or_ge w.length 1000 with hlt | hge
      · have hreq : recordRequest w e = w ++ [e] := by
          simp only [recordRequest]
          rw [if_neg]
          simp only [List.length_append, List.length_singleton]
          omega
        have hlen : (w ++ [e]).length ≤ 1000 := by
          simp only [List.length_append, List.length_singleton]
          omega
        rw [hstep, hreq, ih (w ++ [e]) hlen]
        have harr : w ++ [e] ++ es = w ++ e :: es := by simp
        have h1 : (w ++ [e]).length = w.length + 1 := by simp
        have h2 : (e :: es).length = es.length + 1 := by simp
        have hidx : (w ++ [e]).length + es.length - 1000
            = w.length + (e :: es).length - 1000 := by
          rw [h1, h2]
          omega
        rw [harr, hidx]
      · have hw1000 : w.length = 1000 := le_antisymm hw hge
        have hne : w ≠ [] := by
          intro hcon
          rw [hcon] at hw1000
          simp at hw1000
        have hreq : recordRequest w e = (w ++ [e]).tail := by
          simp only [recordRequest]
          rw [if_pos]
          simp only [List.length_append, List.length_singleton]
          omega
        have htail : (w ++ [e]).tail = w.tail ++ [e] := by
          cases w with
          | nil => exact absurd rfl hne
          | cons x xs => simp
        have hlen : ((w ++ [e]).tail).length ≤ 1000 := by
          rw [htail]
          simp only [List.length_append, List.length_singleton, List.length_tail]
          omega
        rw [hstep, hreq, ih ((w ++ [e]).tail) hlen]
        have hdrop1 : (w ++ [e]).tail ++ es = (w ++ e :: es).drop 1 := by
          rw [htail]
          cases w with
          | nil => exact absurd rfl hne
          | cons x xs => simp
        rw [hdrop1, List.drop_drop]
        have h2 : (w ++ [e]).tail.length = w.length := by
          rw [htail]
          have h3 : (w.tail ++ [e]).length = w.tail.length + 1 := by simp
          rw [h3, List.length_tail]
          omega
        have h4 : (e :: es).length = es.length + 1 := by simp
        have hidx : 1 + ((w ++ [e]).tail.length + es.length - 1000)
            = w.length + (e :: es).length - 1000 := by
          rw [h2, h4]
          omega
        rw [hidx]

/-- C4: the analytics request window never exceeds 1000 records after
any record operation, eviction is FIFO (the oldest record is dropped
first), and recording 1200 records into an empty window retains
exactly the 1000 most recent ones in insertion order (the oldest 200
are gone). -/
theorem analyticsWindow_bounded {α : Type} :
    (∀ es : List α, (recordAll [] es).length ≤ 1000) ∧
    (∀ (w : List α) (e : α), w.length ≤ 1000 → (recordRequest w e).length ≤ 1000) ∧
    (∀ (w : List α) (e : α), w.length = 1000 → recordRequest w e = w.tail ++ [e]) ∧
    (∀ es : List α, es.length = 1200 → recordAll [] es = es.drop 200) := by
  have hkey : ∀ es : List α, recordAll [] es = es.drop (es.length - 1000) := by
    intro es
    have h := recordAll_eq_drop es [] (by simp)
    simpa using h
  refine ⟨?_, ?_, ?_, ?_⟩
  · intro es
    rw [hkey es, List.length_drop]
    omega
  · intro w e hw
    simp only [recordRequest]
    split
    · simp only [List.length_tail, List.length_append, List.length_singleton]
      omega
    · rename_i hgt
      simp only [List.length_append, List.length_singleton] at hgt ⊢
      omega
  · intro w e hw
    have hne : w ≠ [] := by
      intro hcon
      rw [hcon] at hw
      simp at hw
    simp only [recordRequest]
    rw [if_pos (by simp [hw])]
    cases w with
    | nil => exact absurd rfl hne
    | cons x xs => simp
  · intro es hes
    rw [hkey es, hes]

/-- C4 witness: recording the 1200 marked records 0..1199 into an
empty window leaves exactly records 200..1199. -/
theorem analyticsWindow_bounded_witness :
    recordAll [] (List.range 1200) = (List.range 1200).drop 200 :=
  (analyticsWindow_bounded (α := Nat)).2.2.2 (List.range 1200) (by simp)

/-- C3: `verifyUptime` reports `checks` equal to the number of probes,
`uptimePercent = successes / checks * 100`, and `up` exactly when
`uptimePercent ≥ 66`; with 3 checks and exactly 2 successes it reports
`up = true` and `uptimePercent` within rounding distance of 66.67, and
with exactly 1 success it reports `up = false`. -/
theorem verifyUptime_spec (probes : List Bool) (hn : probes ≠ []) :
    (verifyUptime probes).uptimePercent
        = ((probes.filter id).length : ℚ) / (probes.length : ℚ) * 100 ∧
    (verifyUptime probes).checks = probes.length ∧
    ((verifyUptime probes).up = true ↔ (66 : ℚ) ≤ (verifyUptime probes).uptimePercent) ∧
    (probes.length = 3 → (probes.filter id).length = 2 →
        (verifyUptime probes).up = true ∧
        |(verifyUptime probes).uptimePercent - 6667 / 100| ≤ 1 / 100) ∧
    (probes.length = 3 → (probes.filter id).length = 1 →
        (verifyUptime probes).up = false) := by
  refine ⟨rfl, rfl, ?_, ?_, ?_⟩
  · simp [verifyUptime]
  · intro h3 h2
    have hpct : (verifyUptime probes).uptimePercent = 200 / 3 := by
      simp [verifyUptime, h3, h2]
      norm_num
    refine ⟨?_, ?_⟩
    · simp only [verifyUptime, h3, h2]
      norm_num
    · rw [hpct]
      rw [abs_le]
      constructor <;> norm_num
  · intro h3 h1
    simp only [verifyUptime, h3, h1]
    norm_num

/-- C3 witness: three probes with two successes yield `up = true` at
percentage 200/3, which is within 0.01 of 66.67. -/
theorem verifyUptime_spec_witness :
    (verifyUptime [true, true, false]).up = true ∧
    |(verifyUptime [true, true, false]).uptimePercent - 6667 / 100| ≤ 1 / 100 :=
  (verifyUptime_spec [true, true, false] (by decide)).2.2.2.1 (by decide) (by decide)

theorem rateLimit_fresh (st : RLStore) (service userId : String) (cfg : Option Nat)
    (now : Nat) (h : rlGetLive st ("rl:" ++ service ++ ":" ++ userId) now = none) :
    (rateLimit false st service userId cfg now).1
        = decide (effectiveLimit cfg < 1) ∧
    lookupA (rateLimit false st service userId cfg now).2
        ("rl:" ++ service ++ ":" ++ userId) = some (1, some (now + 60)) := by
  constructor
  · simp [rateLimit, rlIncr, h]
  · simp [rateLimit, rlIncr, h, rlExpire, lookupA_setA_self]

theorem rateLimit_live (st : RLStore) (service userId : String) (cfg : Option Nat)
    (now c : Nat) (e : Option Nat) (hc : 1 ≤ c)
    (h : rlGetLive st ("rl:" ++ service ++ ":" ++ userId) now = some (c, e)) :
    (rateLimit false st service userId cfg now).1
        = decide (effectiveLimit cfg < c + 1) ∧
    lookupA (rateLimit false st service userId cfg now).2
        ("rl:" ++ service ++ ":" ++ userId) = some (c + 1, e) := by
  have hne : ¬ (c + 1 = 1) := by omega
  constructor
  · simp [rateLimit, rlIncr, h]
  · simp only [rateLimit, Bool.false_eq_true, if_false, rlIncr, h]
    simp only [if_neg hne]
    rw [lookupA_setA_self]

theorem rlGetLive_of_lookup_window (st : RLStore) (key : String) (c e t : Nat)
    (h : lookupA st key = some (c, some e)) (ht : t < e) :
    rlGetLive st key t = some (c, some e) := by
  simp [rlGetLive, h, ht]

theorem rateLimitRun_live (st : RLStore) (service userId : String) (cfg : Option Nat)
    (ts : List Nat) (c e : Nat) (hc : 1 ≤ c)
    (h : lookupA st ("rl:" ++ service ++ ":" ++ userId) = some (c, some e))
    (hts : ∀ t ∈ ts, t < e) :
    lookupA (rateLimitRun st service userId cfg ts)
        ("rl:" ++ service ++ ":" ++ userId) = some (c + ts.length, some e) := by
  induction ts generalizing st c with
  | nil => simpa [rateLimitRun] using h
  | cons t ts ih =>
      have hlive : rlGetLive st ("rl:" ++ service ++ ":" ++ userId) t
          = some (c, some e) :=
        rlGetLive_of_lookup_window st _ c e t h (hts t (List.mem_cons_self t ts))
      have hstep := (rateLimit_live st service userId cfg t c (some e) hc hlive).2
      have hrun : rateLimitRun st service userId cfg (t :: ts)
          = rateLimitRun (rateLimit false st service userId cfg t).2
              service userId cfg ts := by
        simp [rateLimitRun]
      rw [hrun]
      have := ih (rateLimit false st service userId cfg t).2 (c + 1) (by omega)
        hstep (fun u hu => hts u (List.mem_cons_of_mem t hu))
      rw [this]
      have hlen : c + 1 + ts.length = c + (t :: ts).length := by
        simp only [List.length_cons]
        omega
      rw [hlen]

theorem rateLimitRun_window (st : RLStore) (service userId : String) (cfg : Option Nat)
    (t1 : Nat) (ts : List Nat)
    (h0 : rlGetLive st ("rl:" ++ service ++ ":" ++ userId) t1 = none)
    (hts : ∀ t ∈ ts, t < t1 + 60) :
    lookupA (rateLimitRun st service userId cfg (t1 :: ts))
        ("rl:" ++ service ++ ":" ++ userId)
      = some (ts.length + 1, some (t1 + 60)) := by
  have h1 := (rateLimit_fresh st service userId cfg t1 h0).2
  have hrun : rateLimitRun st service userId cfg (t1 :: ts)
      = rateLimitRun (rateLimit false st service userId cfg t1).2
          service userId cfg ts := by
    simp [rateLimitRun]
  rw [hrun]
  have := rateLimitRun_live (rateLimit false st service userId cfg t1).2
    service userId cfg ts 1 (t1 + 60) (le_refl 1) h1 hts
  rw [this]
  have hlen : 1 + ts.length = ts.length + 1 := by omega
  rw [hlen]

/-- C2: the rate limiter increments the per-(service, identifier)
counter, stamps a 60-second expiry exactly when the post-increment
value is 1, denies exactly when the post-increment counter exceeds the
configured limit (default 100, also when configured as 0), and fails
open on store failure; consequently, within one 60-second window the
Nth request is denied iff N exceeds the limit, and a request after the
window expires restarts the count at 1 with a fresh window. -/
theorem rateLimit_spec (service userId : String) (cfg : Option Nat) :
    (∀ st now, rateLimit true st service userId cfg now = (false, st)) ∧
    (∀ st now, rlGetLive st ("rl:" ++ service ++ ":" ++ userId) now = none →
        (rateLimit false st service userId cfg now).1
            = decide (effectiveLimit cfg < 1) ∧
        lookupA (rateLimit false st service userId cfg now).2
            ("rl:" ++ service ++ ":" ++ userId) = some (1, some (now + 60))) ∧
    (∀ st now c e, 1 ≤ c →
        rlGetLive st ("rl:" ++ service ++ ":" ++ userId) now = some (c, e) →
        (rateLimit false st service userId cfg now).1
            = decide (effectiveLimit cfg < c + 1) ∧
        lookupA (rateLimit false st service userId cfg now).2
            ("rl:" ++ service ++ ":" ++ userId) = some (c + 1, e)) ∧
    (∀ st t1 ts tN,
        rlGetLive st ("rl:" ++ service ++ ":" ++ userId) t1 = none →
        (∀ t ∈ ts, t < t1 + 60) → tN < t1 + 60 →
        ((rateLimit false (rateLimitRun st service userId cfg (t1 :: ts))
            service userId cfg tN).1 = true
          ↔ effectiveLimit cfg < ts.length + 2)) ∧
    (∀ st t1 ts t2,
        rlGetLive st ("rl:" ++ service ++ ":" ++ userId) t1 = none →
        (∀ t ∈ ts, t < t1 + 60) → t1 + 60 ≤ t2 →
        lookupA (rateLimit false (rateLimitRun st service userId cfg (t1 :: ts))
            service userId cfg t2).2
          ("rl:" ++ service ++ ":" ++ userId) = some (1, some (t2 + 60))) := by
  refine ⟨?_, ?_, ?_, ?_, ?_⟩
  · intro st now
    simp [rateLimit]
  · intro st now h
    exact rateLimit_fresh st service userId cfg now h
  · intro st now c e hc h
    exact rateLimit_live st service userId cfg now c e hc h
  · intro st t1 ts tN h0 hts htN
    have hwin := rateLimitRun_window st service userId cfg t1 ts h0 hts
    have hlive : rlGetLive (rateLimitRun st service userId cfg (t1 :: ts))
        ("rl:" ++ service ++ ":" ++ userId) tN
        = some (ts.length + 1, some (t1 + 60)) :=
      rlGetLive_of_lookup_window _ _ _ _ _ hwin htN
    have hden := (rateLimit_live (rateLimitRun st service userId cfg (t1 :: ts))
      service userId cfg tN (ts.length + 1) (some (t1 + 60)) (by omega) hlive).1
    rw [hden]
    simp only [decide_eq_true_eq]
  · intro st t1 ts t2 h0 hts ht2
    have hwin := rateLimitRun_window st service userId cfg t1 ts h0 hts
    have hdead : rlGetLive (rateLimitRun st service userId cfg (t1 :: ts))
        ("rl:" ++ service ++ ":" ++ userId) t2 = none := by
      have hnot : ¬ (t2 < t1 + 60) := by omega
      simp [rlGetLive, hwin, hnot]
    exact (rateLimit_fresh (rateLimitRun st service userId cfg (t1 :: ts))
      service userId cfg t2 hdead).2

/-- C2 witness: with the default limit of 100, the 4th request of a
window (3 earlier requests at instants 0, 1, 2) at instant 3 is still
allowed (4 ≤ 100). -/
theorem rateLimit_spec_witness :
    (rateLimit false (rateLimitRun [] "svc" "u" Option.none [0, 1, 2])
        "svc" "u" Option.none 3).1 = true ↔ effectiveLimit Option.none < 4 :=
  (rateLimit_spec "svc" "u" Option.none).2.2.2.1 [] 0 [1, 2] 3
    (by simp [rlGetLive, lookupA]) (by decide) (by decide)

theorem delKeys_nil (st : List String) : delKeys st [] = st := by
  simp [delKeys]

theorem delKeys_append (st ks1 ks2 : List String) :
    delKeys (delKeys st ks1) ks2 = delKeys st (ks1 ++ ks2) := by
  simp only [delKeys, List.filter_filter]
  refine List.filter_congr ?_
  intro x hx
  by_cases h1 : x ∈ ks1 <;> by_cases h2 : x ∈ ks2 <;> simp [h1, h2]

theorem delKeys_guard (st : List String) (r : ScanResp) :
    (if r.keys.length > 0 then delKeys st r.keys else st) = delKeys st r.keys := by
  split
  · rfl
  · rename_i h
    have hnil : r.keys = [] := by
      cases hk : r.keys with
      | nil => rfl
      | cons a as => rw [hk] at h; simp at h
    rw [hnil, delKeys_nil]

theorem invalidateGo_cons_ok (st : List String) (acc : Nat) (r : ScanResp)
    (rest : List (Except Unit ScanResp)) :
    invalidateGo st acc (Except.ok r :: rest)
      = if r.cursor = 0 then (.ok (acc + r.keys.length), delKeys st r.keys)
        else invalidateGo (delKeys st r.keys) (acc + r.keys.length) rest := by
  simp only [invalidateGo, delKeys_guard]

theorem invalidateGo_ok (bs : List ScanResp) (st : List String) (acc : Nat)
    (hwf : WfTrace bs) :
    invalidateGo st acc (bs.map Except.ok)
      = (.ok (acc + ((bs.map ScanResp.keys).map List.length).sum),
         delKeys st (bs.map ScanResp.keys).flatten) := by
  induction bs generalizing st acc with
  | nil => exact absurd hwf (by simp [WfTrace])
  | cons r rest ih =>
      cases rest with
      | nil =>
          have hc : r.cursor = 0 := hwf
          rw [List.map_cons, List.map_nil, invalidateGo_cons_ok, if_pos hc]
          simp
      | cons r2 rest2 =>
          obtain ⟨hc, hwf2⟩ := hwf
          rw [List.map_cons, invalidateGo_cons_ok, if_neg hc]
          rw [ih (delKeys st r.keys) (acc + r.keys.length) hwf2]
          rw [delKeys_append]
          simp only [List.map_cons, List.flatten_cons, List.sum_cons]
          have harith : acc + r.keys.length
                + ((r2.keys.length :: ((rest2.map ScanResp.keys).map List.length))).sum
              = acc + (r.keys.length
                + ((r2.keys.length :: ((rest2.map ScanResp.keys).map List.length))).sum) := by
            simp only [List.sum_cons]
            omega
          simp only [List.sum_cons] at harith
          rw [harith]

theorem invalidateGo_err (bs : List ScanResp) (st : List String) (acc : Nat)
    (tail : List (Except Unit ScanResp)) (hbs : ∀ b ∈ bs, b.cursor ≠ 0) :
    invalidateGo st acc (bs.map Except.ok ++ Except.error () :: tail)
      = (.error (), delKeys st (bs.map ScanResp.keys).flatten) := by
  induction bs generalizing st acc with
  | nil =>
      simp only [List.map_nil, List.nil_append, invalidateGo, List.flatten_nil,
        delKeys_nil]
  | cons r rest ih =>
      rw [List.map_cons, List.cons_append, invalidateGo_cons_ok,
        if_neg (hbs r (List.mem_cons_self r rest))]
      rw [ih (delKeys st r.keys) (acc + r.keys.length)
        (fun b hb => hbs b (List.mem_cons_of_mem r hb))]
      rw [delKeys_append]
      simp only [List.map_cons, List.flatten_cons]

/-- C6 counterexample: a scan trace whose second round fails makes
`invalidatePattern` propagate the exception (the batch already deleted
stays deleted), not return the count deleted so far as claimed. -/
theorem invalidatePattern_partial_failure_cex :
    invalidatePattern [Except.ok ⟨5, ["a"]⟩, Except.error ()] ["a", "b"]
      = (Except.error (), ["b"]) := by
  rfl

/-- C6 (amended): `invalidatePattern` follows the cursor-based scan
protocol round by round until the cursor returns to 0, deletes every
returned batch, and over a store whose matching keys are exactly the
scanned batches it deletes exactly those N keys and returns N; but on
a partial failure mid-scan it propagates the error to the caller
(keys deleted in earlier rounds remain deleted) instead of returning
the count deleted so far. -/
theorem invalidatePattern_spec (pm : String → Bool) (st : List String)
    (bs : List ScanResp) :
    (WfTrace bs → ((bs.map ScanResp.keys).flatten).Perm (st.filter pm) →
        invalidatePattern (bs.map Except.ok) st
          = (.ok (st.filter pm).length,
             st.filter (fun k => ! pm k))) ∧
    (∀ tail, (∀ b ∈ bs, b.cursor ≠ 0) →
        invalidatePattern (bs.map Except.ok ++ Except.error () :: tail) st
          = (.error (), delKeys st (bs.map ScanResp.keys).flatten)) := by
  constructor
  · intro hwf hperm
    rw [invalidatePattern, invalidateGo_ok bs st 0 hwf]
    have hcount : ((bs.map ScanResp.keys).map List.length).sum
        = (st.filter pm).length := by
      have h1 : ((bs.map ScanResp.keys).map List.length).sum
          = ((bs.map ScanResp.keys).flatten).length := by
        rw [List.length_flatten]
      rw [h1]
      exact hperm.length_eq
    have hdel : delKeys st (bs.map ScanResp.keys).flatten
        = st.filter (fun k => ! pm k) := by
      refine List.filter_congr ?_
      intro x hxst
      have hmem : x ∈ (bs.map ScanResp.keys).flatten ↔ pm x = true := by
        rw [hperm.mem_iff, List.mem_filter]
        constructor
        · exact fun h => h.2
        · exact fun h => ⟨hxst, h⟩
      by_cases hm : pm x = true
      · simp [hm, hmem.mpr hm]
      · have hniff : ¬ x ∈ (bs.map ScanResp.keys).flatten := fun hx => hm (hmem.mp hx)
        simp only [Bool.not_eq_true] at hm
        simp [hm, hniff]
    rw [hcount, hdel, Nat.zero_add]
  · intro tail hbs
    rw [invalidatePattern, invalidateGo_err bs st 0 tail hbs]

/-- C6 witness for the amended claim: a single-round scan returning
the one matching key of a two-key store deletes exactly it and
returns 1. -/
theorem invalidatePattern_spec_witness :
    invalidatePattern [Except.ok ⟨0, ["a"]⟩] ["a", "b"]
      = (.ok 1, ["b"]) := by
  have h := (invalidatePattern_spec (fun k => k == "a") ["a", "b"]
      [⟨0, ["a"]⟩]).1 (by exact rfl) (by decide)
  simpa using h

theorem length_eraseA_le {κ β : Type} [DecidableEq κ] (l : List (κ × β)) (k : κ) :
    (eraseA l k).length ≤ l.length := by
  induction l with
  | nil => simp [eraseA]
  | cons p rest ih =>
      obtain ⟨a, b⟩ := p
      by_cases hak : a = k
      · simp [eraseA, hak]
      · simp only [eraseA, if_neg hak, List.length_cons]
        omega

theorem length_setA_le {κ β : Type} [DecidableEq κ] (l : List (κ × β)) (k : κ) (v : β) :
    (setA l k v).length ≤ l.length + 1 := by
  induction l with
  | nil => simp [setA]
  | cons p rest ih =>
      obtain ⟨a, b⟩ := p
      by_cases hak : a = k
      · simp [setA, hak]
      · simp only [setA, if_neg hak, List.length_cons]
        omega

theorem mlGetL2_length (α : Type) (l2Fails : Bool) (mem1 : L1 α) (l2 : KV α)
    (key : String) (now : Nat) (hm : mem1.length ≤ 100) :
    ((mlGetL2 l2Fails mem1 l2 key now).2).length ≤ 100 := by
  cases l2Fails with
  | true => simpa [mlGetL2] using hm
  | false =>
      cases hget : storeGet l2 key now with
      | none => simpa [mlGetL2, hget] using hm
      | some d =>
          simp only [mlGetL2, Bool.false_eq_true, if_false, hget]
          by_cases hfull : mem1.length ≥ 100
          · rw [if_pos hfull]
            cases mem1 with
            | nil => simp at hfull
            | cons p rest =>
                obtain ⟨k0, v0⟩ := p
                have hev : evictOldest ((k0, v0) :: rest) = rest := by
                  simp [evictOldest, eraseA]
                rw [hev]
                have h1 := length_setA_le rest key (d, now + 60000)
                simp only [List.length_cons] at hm
                omega
          · rw [if_neg hfull]
            have h1 := length_setA_le mem1 key (d, now + 60000)
            omega

/-- C8 counterexample: the multi-level `set` inserts into L1 without
any eviction check, so 101 writes under distinct keys leave the L1
memory map holding 101 entries — more than the claimed capacity of
100. -/
theorem multiLevel_set_overflow_cex :
    ((List.range 101).foldl
        (fun s i => mlSet false s.1 s.2 (toString i) 0 300 0)
        (([] : L1 Nat), ([] : KV Nat))).1.length = 101 := by
  rfl

/-- C8 (amended): reads never grow L1 past 100 entries — an L2
promotion into a full L1 first evicts the oldest-inserted key — reads
check L1 before L2 and promote L2 hits into L1 with a fixed 60-second
expiry, and writes populate both L1 and the backing store; but the
multi-level `set` inserts into L1 unconditionally, so a write to a
full L1 grows it beyond 100 entries (the capacity bound holds only
across `get` operations). -/
theorem multiLevel_spec {α : Type} (mem : L1 α) (l2 : KV α) (key : String)
    (d : α) (ttl now : Nat) :
    (∀ l2Fails, mem.length ≤ 100 →
        ((mlGet l2Fails mem l2 key now).2).length ≤ 100) ∧
    (∀ dv exp, lookupA mem key = some (dv, exp) → now < exp →
        mlGet false mem l2 key now = (some (dv, Level.l1), mem)) ∧
    (lookupA mem key = none → storeGet l2 key now = some d →
        (mlGet false mem l2 key now).1 = some (d, Level.l2) ∧
        lookupA (mlGet false mem l2 key now).2 key = some (d, now + 60000)) ∧
    (∀ k0 e0 rest, mem = (k0, e0) :: rest → mem.length = 100 →
        lookupA mem key = none → storeGet l2 key now = some d →
        (mlGet false mem l2 key now).2 = setA rest key (d, now + 60000)) ∧
    (mlSet false mem l2 key d ttl now
        = (setA mem key (d, now + 60000), storeSet l2 key d ttl now)) := by
  refine ⟨?_, ?_, ?_, ?_, ?_⟩
  · intro l2Fails hm
    cases hl : lookupA mem key with
    | none =>
        simp only [mlGet, hl]
        exact mlGetL2_length α l2Fails mem l2 key now hm
    | some p =>
        obtain ⟨dv, exp⟩ := p
        simp only [mlGet, hl]
        by_cases hexp : now < exp
        · simpa [hexp] using hm
        · rw [if_neg hexp]
          exact mlGetL2_length α l2Fails (eraseA mem key) l2 key now
            (le_trans (length_eraseA_le mem key) hm)
  · intro dv exp hl hexp
    simp [mlGet, hl, hexp]
  · intro hl hget
    constructor
    · simp [mlGet, hl, mlGetL2, hget]
    · simp only [mlGet, hl, mlGetL2, Bool.false_eq_true, if_false, hget]
      rw [lookupA_setA_self]
  · intro k0 e0 rest hmem h100 hl hget
    subst hmem
    have hfull : ((k0, e0) :: rest).length ≥ 100 := by omega
    have hev : evictOldest ((k0, e0) :: rest) = rest := by
      simp [evictOldest, eraseA]
    simp only [mlGet, hl, mlGetL2, Bool.false_eq_true, if_false, hget,
      if_pos hfull, hev]
  · rfl

/-- C8 witness for the amended claim: an L2 hit for a key absent from
an empty L1 is promoted into L1 with expiry 60000. -/
theorem multiLevel_spec_witness :
    (mlGet (α := Nat) false [] [("k", 5, 10)] "k" 0).1 = some (5, Level.l2) ∧
    lookupA (mlGet (α := Nat) false [] [("k", 5, 10)] "k" 0).2 "k"
      = some (5, 60000) :=
  (multiLevel_spec [] [("k", 5, 10)] "k" 5 300 0).2.2.1 rfl rfl

theorem foldl_min_mem (xs : List Nat) (x : Nat) :
    xs.foldl Nat.min x = x ∨ xs.foldl Nat.min x ∈ xs := by
  induction xs generalizing x with
  | nil => left; rfl
  | cons y ys ih =>
      rw [List.foldl_cons]
      rcases ih (Nat.min x y) with h | h
      · rcases min_choice x y with hm | hm
        · left
          rw [h]
          exact hm
        · right
          have hm2 : Nat.min x y = y := hm
          rw [h, hm2]
          exact List.mem_cons_self y ys
      · right
        exact List.mem_cons_of_mem y h

theorem foldl_min_le (xs : List Nat) (x : Nat) :
    xs.foldl Nat.min x ≤ x ∧ ∀ y ∈ xs, xs.foldl Nat.min x ≤ y := by
  induction xs generalizing x with
  | nil => simp
  | cons y ys ih =>
      rw [List.foldl_cons]
      have h := ih (Nat.min x y)
      refine ⟨le_trans h.1 (Nat.min_le_left x y), ?_⟩
      intro z hz
      rcases List.mem_cons.mp hz with hzy | hz2
      · rw [hzy]
        exact le_trans h.1 (Nat.min_le_right x y)
      · exact h.2 z hz2

theorem foldl_max_mem (xs : List Nat) (x : Nat) :
    xs.foldl Nat.max x = x ∨ xs.foldl Nat.max x ∈ xs := by
  induction xs generalizing x with
  | nil => left; rfl
  | cons y ys ih =>
      rw [List.foldl_cons]
      rcases ih (Nat.max x y) with h | h
      · rcases max_choice x y with hm | hm
        · left
          rw [h]
          exact hm
        · right
          have hm2 : Nat.max x y = y := hm
          rw [h, hm2]
          exact List.mem_cons_self y ys
      · right
        exact List.mem_cons_of_mem y h

theorem foldl_max_le (xs : List Nat) (x : Nat) :
    x ≤ xs.foldl Nat.max x ∧ ∀ y ∈ xs, y ≤ xs.foldl Nat.max x := by
  induction xs generalizing x with
  | nil => simp
  | cons y ys ih =>
      rw [List.foldl_cons]
      have h := ih (Nat.max x y)
      refine ⟨le_trans (Nat.le_max_left x y) h.1, ?_⟩
      intro z hz
      rcases List.mem_cons.mp hz with hzy | hz2
      · rw [hzy]
        exact le_trans (Nat.le_max_right x y) h.1
      · exact h.2 z hz2

theorem jsMin_mem (l : List Nat) (h : l ≠ []) : jsMin l ∈ l := by
  cases l with
  | nil => exact absurd rfl h
  | cons x xs =>
      rcases foldl_min_mem xs x with h1 | h1
      · rw [jsMin, h1]
        exact List.mem_cons_self x xs
      · rw [jsMin]
        exact List.mem_cons_of_mem x h1

theorem jsMin_le (l : List Nat) (x : Nat) (hx : x ∈ l) : jsMin l ≤ x := by
  cases l with
  | nil => simp at hx
  | cons y ys =>
      rcases List.mem_cons.mp hx with h1 | h1
      · rw [h1, jsMin]
        exact (foldl_min_le ys y).1
      · rw [jsMin]
        exact (foldl_min_le ys y).2 x h1

theorem jsMax_mem (l : List Nat) (h : l ≠ []) : jsMax l ∈ l := by
  cases l with
  | nil => exact absurd rfl h
  | cons x xs =>
      rcases foldl_max_mem xs x with h1 | h1
      · rw [jsMax, h1]
        exact List.mem_cons_self x xs
      · rw [jsMax]
        exact List.mem_cons_of_mem x h1

theorem le_jsMax (l : List Nat) (x : Nat) (hx : x ∈ l) : x ≤ jsMax l := by
  cases l with
  | nil => simp at hx
  | cons y ys =>
      rcases List.mem_cons.mp hx with h1 | h1
      · rw [h1, jsMax]
        exact (foldl_max_le ys y).1
      · rw [jsMax]
        exact (foldl_max_le ys y).2 x h1

theorem insertionSort_range_1000 :
    (List.range 1000).insertionSort (· ≤ ·) = List.range 1000 :=
  (List.sorted_le_range 1000).insertionSort_eq

/-- C9: the summary's p50/p95/p99 are the nearest-rank percentiles of
the recorded durations — sort ascending and index at
`⌊N × p / 100⌋` — with `min` and `max` the smallest and largest
recorded duration; on the uniform sample 0–999 ms they evaluate to
500, 950, 990, 0 and 999, matching the theoretical percentiles up to
nearest-rank tolerance. -/
theorem summaryRT_spec (times : List Nat) (hne : times ≠ []) :
    ((summaryRT times).p50
        = (times.insertionSort (· ≤ ·)).getD (times.length * 50 / 100) 0 ∧
      (summaryRT times).p95
        = (times.insertionSort (· ≤ ·)).getD (times.length * 95 / 100) 0 ∧
      (summaryRT times).p99
        = (times.insertionSort (· ≤ ·)).getD (times.length * 99 / 100) 0) ∧
    ((summaryRT times).minRT ∈ times ∧
      (∀ x ∈ times, (summaryRT times).minRT ≤ x) ∧
      (summaryRT times).maxRT ∈ times ∧
      (∀ x ∈ times, x ≤ (summaryRT times).maxRT)) ∧
    ((summaryRT (List.range 1000)).p50 = 500 ∧
      (summaryRT (List.range 1000)).p95 = 950 ∧
      (summaryRT (List.range 1000)).p99 = 990 ∧
      (summaryRT (List.range 1000)).minRT = 0 ∧
      (summaryRT (List.range 1000)).maxRT = 999) := by
  have hperm : (times.insertionSort (· ≤ ·)).Perm times :=
    List.perm_insertionSort (· ≤ ·) times
  have hlen : (times.insertionSort (· ≤ ·)).length = times.length :=
    hperm.length_eq
  have hsne : times.insertionSort (· ≤ ·) ≠ [] := by
    intro hcon
    apply hne
    have := hlen
    rw [hcon] at this
    cases times with
    | nil => rfl
    | cons a as => simp at this
  refine ⟨⟨?_, ?_, ?_⟩, ⟨?_, ?_, ?_, ?_⟩, ?_⟩
  · simp only [summaryRT, percentileAt, hlen]
  · simp only [summaryRT, percentileAt, hlen]
  · simp only [summaryRT, percentileAt, hlen]
  · exact hperm.mem_iff.mp (jsMin_mem _ hsne)
  · intro x hx
    exact jsMin_le _ x (hperm.mem_iff.mpr hx)
  · exact hperm.mem_iff.mp (jsMax_mem _ hsne)
  · intro x hx
    exact le_jsMax _ x (hperm.mem_iff.mpr hx)
  · have hsort := insertionSort_range_1000
    have hr : ∀ m, m < 1000 → (List.range 1000).getD m 0 = m := by
      intro m hm
      rw [List.getD_eq_getElem?_getD, List.getElem?_range hm]
      rfl
    refine ⟨?_, ?_, ?_, ?_, ?_⟩
    · simp only [summaryRT, percentileAt, hsort, List.length_range]
      exact hr 500 (by omega)
    · simp only [summaryRT, percentileAt, hsort, List.length_range]
      exact hr 950 (by omega)
    · simp only [summaryRT, percentileAt, hsort, List.length_range]
      exact hr 990 (by omega)
    · simp only [summaryRT, hsort]
      have h0 : (0 : Nat) ∈ List.range 1000 := by simp
      have hmem := jsMin_mem (List.range 1000) (by simp)
      have hle := jsMin_le (List.range 1000) 0 h0
      omega
    · simp only [summaryRT, hsort]
      have h999 : (999 : Nat) ∈ List.range 1000 := by simp
      have hle := le_jsMax (List.range 1000) 999 h999
      have hmem := jsMax_mem (List.range 1000) (by simp)
      have hub : jsMax (List.range 1000) ≤ 999 := by
        have := List.mem_range.mp hmem
        omega
      omega

/-- C9 witness: on the sample `[3, 1, 2]` the reported minimum is a
member of the sample. -/
theorem summaryRT_spec_witness :
    (summaryRT [3, 1, 2]).minRT ∈ [3, 1, 2] :=
  (summaryRT_spec [3, 1, 2] (by decide)).2.1.1

theorem mem_addS (s : List String) (x a : String) :
    a ∈ addS s x ↔ a = x ∨ a ∈ s := by
  by_cases hx : x ∈ s
  · simp only [addS, if_pos hx]
    constructor
    · exact fun h => Or.inr h
    · rintro (rfl | h)
      · exact hx
      · exact h
  · simp only [addS, if_neg hx, List.mem_append, List.mem_singleton]
    tauto

theorem addS_nodup (s : List String) (x : String) (h : s.Nodup) :
    (addS s x).Nodup := by
  by_cases hx : x ∈ s
  · simpa [addS, hx] using h
  · simp only [addS, if_neg hx]
    refine List.nodup_append.mpr ⟨h, List.nodup_singleton x, ?_⟩
    intro a ha hax
    rw [List.mem_singleton] at hax
    subst hax
    exact hx ha

theorem addS_ne_nil (s : List String) (x : String) : addS s x ≠ [] := by
  by_cases hx : x ∈ s
  · simp only [addS, if_pos hx]
    intro hcon
    rw [hcon] at hx
    simp at hx
  · simp only [addS, if_neg hx]
    intro hcon
    have := congrArg List.length hcon
    simp at this

theorem wsInv_init : WSInv wsInit := by
  refine ⟨?_, ?_, ?_, ?_, ?_, ?_⟩
  · simp [wsInit, KeysNodup]
  · simp [wsInit, KeysNodup]
  · intro r ms h
    simp [wsInit, lookupA] at h
  · intro r ms h
    simp [wsInit, lookupA] at h
  · intro r ms m h hm
    simp [wsInit, lookupA] at h
  · intro c cl h
    simp [wsInit, lookupA] at h

theorem wsInv_connect (s : WSState) (c : String)
    (hfresh : lookupA s.clients c = none) (hinv : WSInv s) :
    WSInv (connect s c) := by
  refine ⟨?_, ?_, ?_, ?_, ?_, ?_⟩
  · exact keysNodup_setA s.clients c ⟨[]⟩ hinv.ck
  · exact hinv.rk
  · exact hinv.nonempty
  · exact hinv.memNodup
  · intro r ms m hr hm
    obtain ⟨cl, hcl, hclr⟩ := hinv.memReg r ms m hr hm
    have hmne : m ≠ c := by
      intro hcon
      rw [hcon, hfresh] at hcl
      exact Option.noConfusion hcl
    exact ⟨cl, by rw [show (connect s c).clients = setA s.clients c ⟨[]⟩ from rfl,
      lookupA_setA_ne s.clients c m ⟨[]⟩ hmne]; exact hcl, hclr⟩
  · intro c2 cl2 hc2
    by_cases hcc : c2 = c
    · subst hcc
      rw [show (connect s c2).clients = setA s.clients c2 ⟨[]⟩ from rfl,
        lookupA_setA_self] at hc2
      cases hc2
      simp
    · rw [show (connect s c).clients = setA s.clients c ⟨[]⟩ from rfl,
        lookupA_setA_ne s.clients c c2 ⟨[]⟩ hcc] at hc2
      exact hinv.clNodup c2 cl2 hc2

theorem wsInv_join (s : WSState) (c room : String) (hinv : WSInv s) :
    WSInv (joinRoom s c room) := by
  cases hcl : lookupA s.clients c with
  | none =>
      simp only [joinRoom, hcl]
      exact hinv
  | some cl =>
      have hmembers_nodup : ((lookupA s.rooms room).getD []).Nodup := by
        cases hr : lookupA s.rooms room with
        | none => simp
        | some ms => simpa using hinv.memNodup room ms hr
      refine ⟨?_, ?_, ?_, ?_, ?_, ?_⟩
      · simp only [joinRoom, hcl]
        exact keysNodup_setA s.clients c _ hinv.ck
      · simp only [joinRoom, hcl]
        exact keysNodup_setA s.rooms room _ hinv.rk
      · intro r ms hr
        simp only [joinRoom, hcl] at hr
        by_cases hrr : r = room
        · subst hrr
          rw [lookupA_setA_self] at hr
          cases hr
          exact addS_ne_nil _ c
        · rw [lookupA_setA_ne s.rooms room r _ hrr] at hr
          exact hinv.nonempty r ms hr
      · intro r ms hr
        simp only [joinRoom, hcl] at hr
        by_cases hrr : r = room
        · subst hrr
          rw [lookupA_setA_self] at hr
          cases hr
          exact addS_nodup _ c hmembers_nodup
        · rw [lookupA_setA_ne s.rooms room r _ hrr] at hr
          exact hinv.memNodup r ms hr
      · intro r ms m hr hm
        simp only [joinRoom, hcl] at hr ⊢
        by_cases hrr : r = room
        · subst hrr
          rw [lookupA_setA_self] at hr
          cases hr
          rcases (mem_addS _ c m).mp hm with hmc | hmold
          · subst hmc
            exact ⟨⟨addS cl.rooms r⟩, by rw [lookupA_setA_self],
              (mem_addS cl.rooms r r).mpr (Or.inl rfl)⟩
          · cases hrm : lookupA s.rooms r with
            | none =>
                rw [hrm] at hmold
                simp at hmold
            | some ms0 =>
                rw [hrm] at hmold
                simp only [Option.getD_some] at hmold
                obtain ⟨cl2, hcl2, hcl2r⟩ := hinv.memReg r ms0 m hrm hmold
                by_cases hmc : m = c
                · subst hmc
                  rw [hcl] at hcl2
                  cases hcl2
                  exact ⟨⟨addS cl.rooms r⟩, by rw [lookupA_setA_self],
                    (mem_addS cl.rooms r r).mpr (Or.inl rfl)⟩
                · exact ⟨cl2,
                    by rw [lookupA_setA_ne s.clients c m _ hmc]; exact hcl2, hcl2r⟩
        · rw [lookupA_setA_ne s.rooms room r _ hrr] at hr
          obtain ⟨cl2, hcl2, hcl2r⟩ := hinv.memReg r ms m hr hm
          by_cases hmc : m = c
          · subst hmc
            rw [hcl] at hcl2
            cases hcl2
            exact ⟨⟨addS cl.rooms room⟩, by rw [lookupA_setA_self],
              (mem_addS cl.rooms room r).mpr (Or.inr hcl2r)⟩
          · exact ⟨cl2,
              by rw [lookupA_setA_ne s.clients c m _ hmc]; exact hcl2, hcl2r⟩
      · intro c2 cl2 hc2
        simp only [joinRoom, hcl] at hc2
        by_cases hcc : c2 = c
        · subst hcc
          rw [lookupA_setA_self] at hc2
          cases hc2
          exact addS_nodup cl.rooms room (hinv.clNodup c2 cl hcl)
        · rw [lookupA_setA_ne s.clients c c2 _ hcc] at hc2
          exact hinv.clNodup c2 cl2 hc2

theorem leaveRoom_clients (s : WSState) (c room : String) (cl : WSClient)
    (hcl : lookupA s.clients c = some cl) :
    (leaveRoom s c room).clients = setA s.clients c ⟨cl.rooms.erase room⟩ := by
  simp only [leaveRoom, hcl]

theorem leaveRoom_rooms_ne (s : WSState) (c room r : String) (hne : r ≠ room) :
    lookupA (leaveRoom s c room).rooms r = lookupA s.rooms r := by
  cases hcl : lookupA s.clients c with
  | none => simp only [leaveRoom, hcl]
  | some cl =>
      cases hms : lookupA s.rooms room with
      | none => simp only [leaveRoom, hcl, hms]
      | some ms =>
          simp only [leaveRoom, hcl, hms]
          by_cases hnil : ms.erase c = []
          · rw [if_pos hnil]
            exact lookupA_eraseA_ne s.rooms room r hne
          · rw [if_neg hnil]
            exact lookupA_setA_ne s.rooms room r _ hne

theorem leaveRoom_rooms_self (s : WSState) (c room : String) (cl : WSClient)
    (ms : List String) (hrk : KeysNodup s.rooms)
    (hcl : lookupA s.clients c = some cl) (hms : lookupA s.rooms room = some ms) :
    lookupA (leaveRoom s c room).rooms room
      = if ms.erase c = [] then none else some (ms.erase c) := by
  simp only [leaveRoom, hcl, hms]
  by_cases hnil : ms.erase c = []
  · rw [if_pos hnil, if_pos hnil]
    exact lookupA_eraseA_self s.rooms room hrk
  · rw [if_neg hnil, if_neg hnil]
    exact lookupA_setA_self s.rooms room _

theorem leaveRoom_rooms_absent (s : WSState) (c room : String)
    (hms : lookupA s.rooms room = none) :
    (leaveRoom s c room).rooms = s.rooms := by
  cases hcl : lookupA s.clients c with
  | none => simp only [leaveRoom, hcl]
  | some cl => simp only [leaveRoom, hcl, hms]

theorem wsInv_leave (s : WSState) (c room : String) (hinv : WSInv s) :
    WSInv (leaveRoom s c room) := by
  cases hcl : lookupA s.clients c with
  | none =>
      simp only [leaveRoom, hcl]
      exact hinv
  | some cl =>
      have hclients := leaveRoom_clients s c room cl hcl
      refine ⟨?_, ?_, ?_, ?_, ?_, ?_⟩
      · rw [hclients]
        exact keysNodup_setA s.clients c _ hinv.ck
      · cases hms : lookupA s.rooms room with
        | none =>
            rw [leaveRoom_rooms_absent s c room hms]
            exact hinv.rk
        | some ms =>
            simp only [leaveRoom, hcl, hms]
            by_cases hnil : ms.erase c = []
            · rw [if_pos hnil]
              exact keysNodup_eraseA s.rooms room hinv.rk
            · rw [if_neg hnil]
              exact keysNodup_setA s.rooms room _ hinv.rk
      · intro r ms2 hr
        by_cases hrr : r = room
        · subst hrr
          cases hms : lookupA s.rooms r with
          | none =>
              rw [leaveRoom_rooms_absent s c r hms] at hr
              exact hinv.nonempty r ms2 hr
          | some ms =>
              rw [leaveRoom_rooms_self s c r cl ms hinv.rk hcl hms] at hr
              by_cases hnil : ms.erase c = []
              · rw [if_pos hnil] at hr
                exact Option.noConfusion hr
              · rw [if_neg hnil] at hr
                cases hr
                exact hnil
        · rw [leaveRoom_rooms_ne s c room r hrr] at hr
          exact hinv.nonempty r ms2 hr
      · intro r ms2 hr
        by_cases hrr : r = room
        · subst hrr
          cases hms : lookupA s.rooms r with
          | none =>
              rw [leaveRoom_rooms_absent s c r hms] at hr
              exact hinv.memNodup r ms2 hr
          | some ms =>
              rw [leaveRoom_rooms_self s c r cl ms hinv.rk hcl hms] at hr
              by_cases hnil : ms.erase c = []
              · rw [if_pos hnil] at hr
                exact Option.noConfusion hr
              · rw [if_neg hnil] at hr
                cases hr
                exact (hinv.memNodup r ms hms).erase c
        · rw [leaveRoom_rooms_ne s c room r hrr] at hr
          exact hinv.memNodup r ms2 hr
      · intro r ms2 m hr hm
        by_cases hrr : r = room
        · subst hrr
          cases hms : lookupA s.rooms r with
          | none =>
              rw [leaveRoom_rooms_absent s c r hms] at hr
              rw [hms] at hr
              exact Option.noConfusion hr
          | some ms =>
              rw [leaveRoom_rooms_self s c r cl ms hinv.rk hcl hms] at hr
              by_cases hnil : ms.erase c = []
              · rw [if_pos hnil] at hr
                exact Option.noConfusion hr
              · rw [if_neg hnil] at hr
                cases hr
                have hmc : m ≠ c :=
                  fun hcon => ((hinv.memNodup r ms hms).mem_erase_iff.mp hm).1
                    (hcon ▸ rfl)
                have hmms : m ∈ ms := List.mem_of_mem_erase hm
                obtain ⟨cl2, hcl2, hcl2r⟩ := hinv.memReg r ms m hms hmms
                refine ⟨cl2, ?_, hcl2r⟩
                rw [hclients, lookupA_setA_ne s.clients c m _ hmc]
                exact hcl2
        · rw [leaveRoom_rooms_ne s c room r hrr] at hr
          obtain ⟨cl2, hcl2, hcl2r⟩ := hinv.memReg r ms2 m hr hm
          by_cases hmc : m = c
          · subst hmc
            rw [hcl] at hcl2
            cases hcl2
            refine ⟨⟨cl.rooms.erase room⟩, ?_, ?_⟩
            · rw [hclients, lookupA_setA_self]
            · exact (List.mem_erase_of_ne hrr).mpr hcl2r
          · refine ⟨cl2, ?_, hcl2r⟩
            rw [hclients, lookupA_setA_ne s.clients c m _ hmc]
            exact hcl2
      · intro c2 cl2 hc2
        rw [hclients] at hc2
        by_cases hcc : c2 = c
        · subst hcc
          rw [lookupA_setA_self] at hc2
          cases hc2
          exact (hinv.clNodup c2 cl hcl).erase room
        · rw [lookupA_setA_ne s.clients c c2 _ hcc] at hc2
          exact hinv.clNodup c2 cl2 hc2

theorem foldLeave_clients (L : List String) (s : WSState) (c : String)
    (cl : WSClient) (hcl : lookupA s.clients c = some cl) :
    lookupA ((L.foldl (fun st r => leaveRoom st c r) s)).clients c
      = some ⟨List.foldl (fun rs r => rs.erase r) cl.rooms L⟩ := by
  induction L generalizing s cl with
  | nil => simpa using hcl
  | cons r rest ih =>
      rw [List.foldl_cons, List.foldl_cons]
      refine ih (leaveRoom s c r) ⟨cl.rooms.erase r⟩ ?_
      rw [leaveRoom_clients s c r cl hcl, lookupA_setA_self]

theorem foldl_erase_self (l : List String) :
    List.foldl (fun rs r => rs.erase r) l l = [] := by
  induction l with
  | nil => rfl
  | cons r rest ih =>
      rw [List.foldl_cons, List.erase_cons_head]
      exact ih

theorem foldLeave_inv (L : List String) (s : WSState) (c : String)
    (hinv : WSInv s) : WSInv (L.foldl (fun st r => leaveRoom st c r) s) := by
  induction L generalizing s with
  | nil => exact hinv
  | cons r rest ih =>
      rw [List.foldl_cons]
      exact ih (leaveRoom s c r) (wsInv_leave s c r hinv)

theorem leaveRoom_shrink (s : WSState) (c room r : String) (ms2 : List String)
    (hrk : KeysNodup s.rooms)
    (h : lookupA (leaveRoom s c room).rooms r = some ms2) :
    ∃ ms, lookupA s.rooms r = some ms ∧ ∀ m ∈ ms2, m ∈ ms := by
  by_cases hrr : r = room
  · subst hrr
    cases hcl : lookupA s.clients c with
    | none =>
        simp only [leaveRoom, hcl] at h
        exact ⟨ms2, h, fun m hm => hm⟩
    | some cl =>
        cases hms : lookupA s.rooms r with
        | none =>
            rw [leaveRoom_rooms_absent s c r hms, hms] at h
            exact Option.noConfusion h
        | some ms =>
            rw [leaveRoom_rooms_self s c r cl ms hrk hcl hms] at h
            by_cases hnil : ms.erase c = []
            · rw [if_pos hnil] at h
              exact Option.noConfusion h
            · rw [if_neg hnil] at h
              cases h
              exact ⟨ms, rfl, fun m hm => List.mem_of_mem_erase hm⟩
  · rw [leaveRoom_rooms_ne s c room r hrr] at h
    exact ⟨ms2, h, fun m hm => hm⟩

theorem foldLeave_shrink (L : List String) (s : WSState) (c r : String)
    (ms2 : List String) (hinv : WSInv s)
    (h : lookupA ((L.foldl (fun st r => leaveRoom st c r) s)).rooms r = some ms2) :
    ∃ ms, lookupA s.rooms r = some ms ∧ ∀ m ∈ ms2, m ∈ ms := by
  induction L generalizing s ms2 with
  | nil => exact ⟨ms2, h, fun m hm => hm⟩
  | cons room rest ih =>
      rw [List.foldl_cons] at h
      obtain ⟨msMid, hmid, hsub1⟩ := ih (leaveRoom s c room)
        ms2 (wsInv_leave s c room hinv) h
      obtain ⟨ms, hms, hsub2⟩ := leaveRoom_shrink s c room r msMid hinv.rk hmid
      exact ⟨ms, hms, fun m hm => hsub2 m (hsub1 m hm)⟩

theorem disconnect_no_membership (s : WSState) (c : String) (hinv : WSInv s) :
    WSInv (disconnect s c) ∧
    (∀ r ms, lookupA (disconnect s c).rooms r = some ms → ¬ c ∈ ms) := by
  cases hcl : lookupA s.clients c with
  | none =>
      simp only [disconnect, hcl]
      refine ⟨hinv, ?_⟩
      intro r ms hr hm
      obtain ⟨cl2, hcl2, _⟩ := hinv.memReg r ms c hr hm
      rw [hcl] at hcl2
      exact Option.noConfusion hcl2
  | some cl =>
      have hinv2 : WSInv (cl.rooms.foldl (fun st r => leaveRoom st c r) s) :=
        foldLeave_inv cl.rooms s c hinv
      have hc2 : lookupA ((cl.rooms.foldl (fun st r => leaveRoom st c r) s)).clients c
          = some ⟨[]⟩ := by
        rw [foldLeave_clients cl.rooms s c cl hcl, foldl_erase_self]
      have hrooms_eq : (disconnect s c).rooms
          = ((cl.rooms.foldl (fun st r => leaveRoom st c r) s)).rooms := by
        simp only [disconnect, hcl]
      have hclients_eq : (disconnect s c).clients
          = eraseA ((cl.rooms.foldl (fun st r => leaveRoom st c r) s)).clients c := by
        simp only [disconnect, hcl]
      have hno : ∀ r ms,
          lookupA ((cl.rooms.foldl (fun st r => leaveRoom st c r) s)).rooms r
            = some ms → ¬ c ∈ ms := by
        intro r ms hr hm
        obtain ⟨cl2, hcl2, hcl2r⟩ := hinv2.memReg r ms c hr hm
        rw [hc2] at hcl2
        cases hcl2
        simp at hcl2r
      refine ⟨⟨?_, ?_, ?_, ?_, ?_, ?_⟩, ?_⟩
      · rw [hclients_eq]
        exact keysNodup_eraseA _ c hinv2.ck
      · rw [hrooms_eq]
        exact hinv2.rk
      · intro r ms hr
        rw [hrooms_eq] at hr
        exact hinv2.nonempty r ms hr
      · intro r ms hr
        rw [hrooms_eq] at hr
        exact hinv2.memNodup r ms hr
      · intro r ms m hr hm
        rw [hrooms_eq] at hr
        obtain ⟨cl2, hcl2, hcl2r⟩ := hinv2.memReg r ms m hr hm
        have hmc : m ≠ c := by
          intro hcon
          exact hno r ms hr (hcon ▸ hm)
        refine ⟨cl2, ?_, hcl2r⟩
        rw [hclients_eq, lookupA_eraseA_ne _ c m hmc]
        exact hcl2
      · intro c2 cl2 hc2x
        rw [hclients_eq] at hc2x
        by_cases hcc : c2 = c
        · subst hcc
          rw [lookupA_eraseA_self _ c2 hinv2.ck] at hc2x
          exact Option.noConfusion hc2x
        · rw [lookupA_eraseA_ne _ c c2 hcc] at hc2x
          exact hinv2.clNodup c2 cl2 hc2x
      · intro r ms hr
        rw [hrooms_eq] at hr
        exact hno r ms hr

theorem wsInv_reachable (s : WSState) (h : Reachable s) : WSInv s := by
  induction h with
  | init => exact wsInv_init
  | connect c hfresh _ ih => exact wsInv_connect _ c hfresh ih
  | join c room _ ih => exact wsInv_join _ c room ih
  | leave c room _ ih => exact wsInv_leave _ c room ih
  | disconnect c _ ih => exact (disconnect_no_membership _ c ih).1

/-- C7: in every reachable registry state no empty room exists (a room
is created on first join and deleted with its last member); after a
disconnect the closed connection is in no room's membership; a room
whose only member disconnects no longer exists; and a registered
client joining a then-absent room recreates it with exactly that
client as its fresh membership. -/
theorem wsRooms_spec (s : WSState) (hreach : Reachable s) :
    (∀ r ms, lookupA s.rooms r = some ms → ms ≠ []) ∧
    (∀ c r ms, lookupA (disconnect s c).rooms r = some ms → ¬ c ∈ ms) ∧
    (∀ c r, lookupA s.rooms r = some [c] →
        lookupA (disconnect s c).rooms r = none) ∧
    (∀ c c2 r cl2, lookupA (disconnect s c).rooms r = none →
        lookupA (disconnect s c).clients c2 = some cl2 →
        lookupA (joinRoom (disconnect s c) c2 r).rooms r = some [c2]) := by
  have hinv : WSInv s := wsInv_reachable s hreach
  refine ⟨hinv.nonempty, ?_, ?_, ?_⟩
  · intro c
    exact (disconnect_no_membership s c hinv).2
  · intro c r hr
    cases hres : lookupA (disconnect s c).rooms r with
    | none => rfl
    | some ms2 =>
        exfalso
        have hinvd : WSInv (disconnect s c) := (disconnect_no_membership s c hinv).1
        have hnoc : ¬ c ∈ ms2 := (disconnect_no_membership s c hinv).2 r ms2 hres
        have hsub : ∀ m ∈ ms2, m ∈ [c] := by
          cases hcl : lookupA s.clients c with
          | none =>
              obtain ⟨cl2, hcl2, _⟩ := hinv.memReg r [c] c hr
                (List.mem_singleton_self c)
              rw [hcl] at hcl2
              exact Option.noConfusion hcl2
          | some cl =>
              have hres2 :
                  lookupA ((cl.rooms.foldl (fun st r => leaveRoom st c r) s)).rooms r
                    = some ms2 := by
                have : (disconnect s c).rooms
                    = ((cl.rooms.foldl (fun st r => leaveRoom st c r) s)).rooms := by
                  simp only [disconnect, hcl]
                rw [this] at hres
                exact hres
              obtain ⟨ms, hms, hsub⟩ := foldLeave_shrink cl.rooms s c r ms2 hinv hres2
              rw [hr] at hms
              cases hms
              exact hsub
        have hne : ms2 ≠ [] := hinvd.nonempty r ms2 hres
        cases ms2 with
        | nil => exact hne rfl
        | cons m rest =>
            have hm := hsub m (List.mem_cons_self m rest)
            rw [List.mem_singleton] at hm
            subst hm
            exact hnoc (List.mem_cons_self m rest)
  · intro c c2 r cl2 hnone hc2
    simp only [joinRoom, hc2, hnone]
    rw [lookupA_setA_self]
    rfl

/-- C7 witness: the sole member of room `"ops"` disconnecting removes
the room entirely. -/
theorem wsRooms_spec_witness :
    lookupA (disconnect (joinRoom (connect wsInit "c1") "c1" "ops") "c1").rooms
      "ops" = none :=
  (wsRooms_spec (joinRoom (connect wsInit "c1") "c1" "ops")
      (Reachable.join "c1" "ops" (Reachable.connect "c1" rfl Reachable.init))).2.2.1
    "c1" "ops" rfl

end FreeApiHub
